import Mathlib

/-!
Verification development for the s3-vault-manager repository.

The repository is a virtual-filesystem layer over a flat object store:
an Express API server (file `src/unnamed/part_000`) exposing list,
upload, create-folder, copy and delete operations, backed by an object
store client (`src/server/s3.js`) and a metadata catalog.

This file shallowly embeds the relevant program parts:

* `normalizeKey` and its helpers embed the key normalizer
  (`part_000`, lines 25-31), including the semantics of Node's
  `path.posix.normalize`.
* `escapeRegexChars` / `matchEscaped` embed `escapeRegex` (line 33) and
  the anchored pattern matching performed by the catalog queries that
  are built as `new RegExp` from an escaped prefix.
* `FileRec`, `St` and the `...Handler` functions embed the catalog
  records and the mutation endpoints; `FailSpec` injects failures of
  the store call, the catalog write and the activity-log append, so
  that the error-propagation behavior of the `try/catch` blocks is
  observable.
* `deleteS3PrefixFn` / `copyS3PrefixFn` embed the paginated prefix
  walkers of `src/server/s3.js` against a listing snapshot (pages of at
  most 1000 keys, the store's page size); `walkRequests` embeds the
  shared request/continuation-token loop skeleton of those walkers for
  an arbitrary sequence of store responses.

Strings are manipulated at the level of their character lists
(`String.data`), which matches JavaScript's index-based string
operations.
-/

/-- Model of JavaScript `s.startsWith(pfx)`. -/
def jsStartsWith (s pfx : String) : Bool := pfx.data.isPrefixOf s.data

/-- Model of JavaScript `s.endsWith(sfx)`. -/
def jsEndsWith (s sfx : String) : Bool := sfx.data.isSuffixOf s.data

/-- Split a character list at every `'/'` (model of `String.split('/')`
into path segments; used to state segment-level properties). -/
def consHead (c : Char) : List (List Char) → List (List Char)
  | [] => [[c]]
  | s :: ss => (c :: s) :: ss

def splitSlash : List Char → List (List Char)
  | [] => [[]]
  | c :: cs => if c = '/' then [] :: splitSlash cs else consHead c (splitSlash cs)

/-- Join segments with `'/'` (inverse of `splitSlash`). -/
def joinSlash : List (List Char) → List Char
  | [] => []
  | [s] => s
  | s :: s2 :: ss => s ++ '/' :: joinSlash (s2 :: ss)

/-- One step of Node's `normalizeString` segment resolution
(`path.posix.normalize`): empty and `"."` segments are dropped, `".."`
pops the previous regular segment, accumulates at the front when
`allowAbove` (relative path), and is dropped at the root of an absolute
path.  The accumulator is the reversed output. -/
def normStep (allowAbove : Bool) (acc : List (List Char)) (seg : List Char) : List (List Char) :=
  if seg = [] ∨ seg = ['.'] then acc
  else if seg = ['.', '.'] then
    match acc with
    | [] => if allowAbove then [['.', '.']] else []
    | t :: rest => if t = ['.', '.'] then (if allowAbove then ['.', '.'] :: t :: rest else t :: rest) else rest
  else seg :: acc

def normSegs (allowAbove : Bool) (segs : List (List Char)) : List (List Char) :=
  (segs.foldl (normStep allowAbove) []).reverse

/-- Model of Node `path.posix.normalize` on the character list of the
path: resolves `"."` and `".."`, collapses repeated separators, keeps a
trailing separator, returns `"."` for an empty relative result and
`"/"` for an empty absolute result. -/
def posixNormalizeChars (cs : List Char) : List Char :=
  if cs = [] then ['.']
  else
    let isAbs := cs.head? = some '/'
    let trailing := cs.getLast? = some '/'
    let body := joinSlash (normSegs (!isAbs) (splitSlash cs))
    if body = [] then
      if isAbs then ['/'] else if trailing then ['.', '/'] else ['.']
    else
      (if isAbs then '/' :: body else body) ++ (if trailing then ['/'] else [])

/-- Model of `.replace(/^(\.\.(\/|$))+/, "")` from `normalizeKey`
(`part_000` line 29): removes every leading `"../"` repetition, and a
final bare `".."`. -/
def stripDotDot : List Char → List Char
  | [] => []
  | [c] => [c]
  | [c1, c2] => if c1 = '.' ∧ c2 = '.' then [] else [c1, c2]
  | c1 :: c2 :: c3 :: rest =>
      if c1 = '.' ∧ c2 = '.' ∧ c3 = '/' then stripDotDot rest
      else c1 :: c2 :: c3 :: rest

/-- Model of `.replace(/^\/+/, "")` (line 30): drop leading slashes. -/
def stripLeadingSlashes : List Char → List Char
  | [] => []
  | c :: cs => if c = '/' then stripLeadingSlashes cs else c :: cs

/-- Model of `.replace(/\\/g, "/")` (line 27). -/
def replaceBackslashes (cs : List Char) : List Char :=
  cs.map fun c => if c = '\\' then '/' else c

/-- Embedding of `normalizeKey` (`part_000`, lines 25-31). -/
def normalizeKey (key : String) : String :=
  let raw := replaceBackslashes key.data
  if raw = [] then ""
  else String.mk (stripLeadingSlashes (stripDotDot (posixNormalizeChars raw)))

/-- Physical resolution of a key's segments against a root directory
(given as a segment list): empty and `"."` segments are no-ops, `".."`
pops a component (possibly out of the root), anything else descends. -/
def resolveStep (stack : List (List Char)) (seg : List Char) : List (List Char) :=
  if seg = [] ∨ seg = ['.'] then stack
  else if seg = ['.', '.'] then stack.dropLast
  else stack ++ [seg]

def physResolve (root : List (List Char)) (key : List Char) : List (List Char) :=
  (splitSlash key).foldl resolveStep root

/-- The character class escaped by `escapeRegex` (`part_000` line 33):
`[.*+?^${}()|[\]\\]`. -/
def isRegexMeta (c : Char) : Bool :=
  c = '.' || c = '*' || c = '+' || c = '?' || c = '^' || c = '$' ||
  c = '\x7b' || c = '\x7d' || c = '(' || c = ')' || c = '|' || c = '[' || c = ']' || c = '\\'

/-- Embedding of `escapeRegex` (line 33): prepend a backslash to every
regex metacharacter. -/
def escapeRegexChars : List Char → List Char
  | [] => []
  | c :: cs => (if isRegexMeta c then ['\\', c] else [c]) ++ escapeRegexChars cs

def escapeRegex (s : String) : String := String.mk (escapeRegexChars s.data)

/-- Anchored matching of the escaped-literal regex fragment produced by
`escapeRegex` against the start of a subject.  A backslash-escaped
metacharacter matches that literal character.  On any construct outside
this fragment (an unescaped metacharacter, an escape of a
non-metacharacter, a trailing backslash) the matcher returns `none`:
the fragment's semantics would not be literal there. -/
def matchEscaped : List Char → List Char → Option Bool
  | [], _ => some true
  | p :: ps, cs =>
      if p = '\\' then
        match ps with
        | [] => none
        | q :: ps2 =>
            if isRegexMeta q then
              match cs with
              | [] => some false
              | c :: cs2 => if q = c then matchEscaped ps2 cs2 else some false
            else none
      else if isRegexMeta p then none
      else
        match cs with
        | [] => some false
        | c :: cs2 => if p = c then matchEscaped ps cs2 else some false

/-- Semantics of the catalog-side test `{ filePath: new RegExp("^" ++
escapeRegex pfx) }` used by the list, copy and delete handlers. -/
def regexTest (pfx s : String) : Bool :=
  (matchEscaped (escapeRegexChars pfx.data) s.data).getD false

/-- Model of Node `path.basename` (posix) on the inputs that occur in
the server: drop trailing separators, then keep the part after the last
remaining separator. -/
def basenameChars (cs : List Char) : List Char :=
  ((cs.reverse.dropWhile (fun c => c = '/')).takeWhile (fun c => c ≠ '/')).reverse

def basename (s : String) : String := String.mk (basenameChars s.data)

/-- Model of `.replace(/\/$/, "")`: remove one trailing slash. -/
def stripTrailingSlashOnce (s : String) : String :=
  if jsEndsWith s "/" then String.mk s.data.dropLast else s

/-! ## Data model: object store, metadata catalog, activity log -/

/-- A metadata catalog record (Mongo `files` collection document), with
the fields written by the handlers. -/
structure FileRec where
  filePath : String
  fileName : String
  size : Nat
  isFolder : Bool
  userId : String
  updatedAt : Nat
deriving DecidableEq

/-- An activity-log entry (`fileActivityLogs` document, written by
`logFileAction`, `part_000` lines 81-91). -/
structure LogEntry where
  action : String
  filePath : String
  fileName : String
  details : Option String
  userId : String
  createdAt : Nat
deriving DecidableEq

/-- Combined state: object-store keys, catalog records, log entries. -/
structure St where
  store : List String
  catalog : List FileRec
  logs : List LogEntry
deriving DecidableEq

/-- Which of the three external effects throw, to observe the
`try/catch` error propagation of the handlers: the object-store call,
the catalog write, and the activity-log insert. -/
structure FailSpec where
  s3Fail : Bool
  catalogFail : Bool
  logFail : Bool
deriving DecidableEq

def noFail : FailSpec := ⟨false, false, false⟩

instance : DecidableEq (Except String Unit)
  | .ok (), .ok () => isTrue rfl
  | .error x, .error y =>
      if h : x = y then isTrue (h ▸ rfl) else isFalse (fun hc => h (Except.error.inj hc))
  | .ok _, .error _ => isFalse (fun hc => Except.noConfusion hc)
  | .error _, .ok _ => isFalse (fun hc => Except.noConfusion hc)

/-- Mongo `updateOne({filePath}, {$set: ...}, {upsert: true})`: replace
the first record with this `filePath`, or append when absent. -/
def catalogUpsert : List FileRec → FileRec → List FileRec
  | [], r => [r]
  | x :: xs, r => if x.filePath = r.filePath then r :: xs else x :: catalogUpsert xs r

/-- Mongo `deleteOne({filePath})`: remove the first matching record. -/
def catalogDeleteOne : List FileRec → String → List FileRec
  | [], _ => []
  | x :: xs, p => if x.filePath = p then xs else x :: catalogDeleteOne xs p

/-- `buildKey` from `src/server/s3.js` line 49: prepend the configured
base prefix `b` to a key. -/
def buildKey (b k : String) : String := b ++ k

/-- S3 `PutObjectCommand`: the key exists afterwards (overwrite keeps
the modeled key set unchanged). -/
def storePut (store : List String) (k : String) : List String :=
  if store.contains k then store else store ++ [k]

/-- Pages of at most 1000 keys, fuel-structured so that the kernel can
evaluate it; `chunks1000` supplies enough fuel (every step consumes at
least one element). -/
def chunksAux : Nat → List String → List (List String)
  | _, [] => []
  | 0, l => [l]
  | fuel + 1, x :: xs => (x :: xs).take 1000 :: chunksAux fuel ((x :: xs).drop 1000)

/-- Pages of at most 1000 keys: the page size of the store's
`ListObjectsV2` pagination. -/
def chunks1000 (l : List String) : List (List String) := chunksAux l.length l

/-- One batched `DeleteObjectsCommand` for a listed page. -/
def removeKeys (store page : List String) : List String :=
  store.filter (fun k => !page.contains k)

/-- Embedding of `deleteS3Prefix` (`src/server/s3.js` lines 108-136):
walk the pages of the listing of `buildKey b p` (taken as a snapshot of
the store at call time; keys deleted by earlier pages lie before the
continuation token and are not re-listed) and issue a batched delete
for each non-empty page. -/
def deleteS3PrefixFn (b : String) (store : List String) (p : String) : List String :=
  (chunks1000 (store.filter (fun k => jsStartsWith k (buildKey b p)))).foldl removeKeys store

/-- JavaScript `key.replace(pat, "")` for the walker's keys: every key
handed to it starts with `pat` (it was listed under that prefix), so
the first occurrence is the leading one and `replace` drops it. -/
def jsReplaceLeading (pat s : List Char) : List Char :=
  if pat.isPrefixOf s then s.drop pat.length else s

/-- Embedding of `copyS3Prefix` (`src/server/s3.js` lines 148-170):
walk the pages under `buildKey b sp` and, for each listed key, compute
the relative remainder and server-side copy it under `dp`. -/
def copyS3PrefixFn (b : String) (store : List String) (sp dp : String) : List String :=
  (chunks1000 (store.filter (fun k => jsStartsWith k (buildKey b sp)))).foldl
    (fun s page => page.foldl
      (fun s2 k =>
        let relative : List Char := jsReplaceLeading (buildKey b sp).data k.data
        storePut s2 (buildKey b (dp ++ String.mk relative))) s)
    store

/-- A store `ListObjectsV2` response: keys, `IsTruncated`, and the
optional `NextContinuationToken`. -/
structure ListPage where
  keys : List String
  isTruncated : Bool
  nextContinuationToken : Option String
deriving DecidableEq

/-- JavaScript truthiness of the continuation token carried by the
`do/while` loops of `deleteS3Prefix` and `copyS3Prefix`: `undefined`
and the empty string are falsy. -/
def tokenTruthy : Option String → Bool
  | none => false
  | some s => !(s = "")

/-- The request/continuation-token skeleton shared by `deleteS3Prefix`
and `copyS3Prefix`, run against an arbitrary sequence of store
responses: returns the token sent with each request actually made.
The first request carries no token; after a response the next token is
`NextContinuationToken` when `IsTruncated` and `undefined` otherwise,
and the loop continues while that token is truthy.  When the walker
asks for a page beyond the given response sequence only the request is
recorded. -/
def walkRequests : Option String → List ListPage → List (Option String)
  | tok, [] => [tok]
  | tok, p :: rest =>
      let tok2 := if p.isTruncated then p.nextContinuationToken else none
      tok :: (if tokenTruthy tok2 then walkRequests tok2 rest else [])

/-! ## Handlers (`src/unnamed/part_000`) -/

/-- The catalog record upserted by the upload handler (lines 235-248). -/
def uploadRecord (uid : String) (now : Nat) (safeKey content : String) : FileRec :=
  { filePath := safeKey, fileName := basename safeKey, size := content.length,
    isFolder := false, userId := uid, updatedAt := now }

/-- An activity-log entry as written by `logFileAction`. -/
def logRec (action filePath fileName uid : String) (details : Option String) (now : Nat) : LogEntry :=
  { action := action, filePath := filePath, fileName := fileName,
    details := details, userId := uid, createdAt := now }

/-- Embedding of `POST /api/files/upload` (lines 222-261).  The handler
body runs inside one `try`; any throwing step ends in the `catch`,
which answers with the error response, keeping the effects already
applied.  The upload payload is modeled by the string `content` (the
base64 transport decoding is not modeled; `buffer.length` is modeled as
`content.length`). -/
def uploadHandler (f : FailSpec) (b uid : String) (now : Nat) (st : St)
    (key content contentType : String) : Except String Unit × St :=
  let safeKey := normalizeKey key
  if safeKey = "" ∨ content = "" then (Except.error "Missing key or content", st)
  else if f.s3Fail then (Except.error "Upload failed", st)
  else
    let st1 : St := { st with store := storePut st.store (buildKey b safeKey) }
    if f.catalogFail then (Except.error "Upload failed", st1)
    else
      let st2 : St := { st1 with catalog := catalogUpsert st1.catalog (uploadRecord uid now safeKey content) }
      if f.logFail then (Except.error "Upload failed", st2)
      else
        (Except.ok (), { st2 with logs := st2.logs ++
          [logRec "upload" safeKey (basename safeKey) uid
            (if contentType = "" then none else some contentType) now] })

/-- The catalog record upserted for a folder marker (lines 276-289 and
320-333). -/
def folderRecord (uid : String) (now : Nat) (folderKey : String) : FileRec :=
  { filePath := folderKey, fileName := basename (stripTrailingSlashOnce folderKey), size := 0,
    isFolder := true, userId := uid, updatedAt := now }

/-- Embedding of `POST /api/folders` (lines 263-300). -/
def createFolderHandler (f : FailSpec) (b uid : String) (now : Nat) (st : St)
    (key : String) : Except String Unit × St :=
  let safeKey := normalizeKey key
  if safeKey = "" then (Except.error "Missing folder key", st)
  else
    let folderKey := if jsEndsWith safeKey "/" then safeKey else safeKey ++ "/"
    if f.s3Fail then (Except.error "Create folder failed", st)
    else
      let st1 : St := { st with store := storePut st.store (buildKey b folderKey) }
      if f.catalogFail then (Except.error "Create folder failed", st1)
      else
        let st2 : St := { st1 with catalog := catalogUpsert st1.catalog (folderRecord uid now folderKey) }
        if f.logFail then (Except.error "Create folder failed", st2)
        else
          (Except.ok (), { st2 with logs := st2.logs ++
            [logRec "folder_create" folderKey (basename (stripTrailingSlashOnce folderKey)) uid none now] })

/-- The catalog record upserted for each source record found under the
source prefix during a folder copy (lines 339-357): the new path
substitutes the prefix; `fileName` falls back to the basename of the
new path only when the source record's `fileName` is empty; `isFolder`
is `file.isFolder || newPath.endsWith("/")`. -/
def copyDescRecord (uid : String) (now : Nat) (sp dp : String) (r : FileRec) : FileRec :=
  let relative : List Char := r.filePath.data.drop sp.data.length
  let newPath : String := String.mk (dp.data ++ relative)
  { filePath := newPath,
    fileName := if r.fileName = "" then basename (stripTrailingSlashOnce newPath) else r.fileName,
    size := r.size,
    isFolder := r.isFolder || jsEndsWith newPath "/",
    userId := uid, updatedAt := now }

/-- Embedding of `POST /api/files/copy` (lines 302-391).  A source key
ending in `/` is copied as a prefix: the destination folder marker is
created first, the store prefix is walked and copied, the destination
folder record is upserted, then every catalog record under the source
prefix gets its recomputed upsert.  Otherwise a single server-side
object copy is done, which throws `NoSuchKey` when the source object
does not exist. -/
def copyHandler (f : FailSpec) (b uid : String) (now : Nat) (st : St)
    (sourceKey destinationKey : String) : Except String Unit × St :=
  let safeSource := normalizeKey sourceKey
  let safeDestination := normalizeKey destinationKey
  if safeSource = "" ∨ safeDestination = "" then (Except.error "Missing source or destination", st)
  else if jsEndsWith safeSource "/" then
    let sp := safeSource
    let dp := if jsEndsWith safeDestination "/" then safeDestination else safeDestination ++ "/"
    if f.s3Fail then (Except.error "Copy failed", st)
    else
      let store2 := copyS3PrefixFn b (storePut st.store (buildKey b dp)) sp dp
      let st1 : St := { st with store := store2 }
      if f.catalogFail then (Except.error "Copy failed", st1)
      else
        let catalog1 := catalogUpsert st1.catalog (folderRecord uid now dp)
        let sourceFiles := catalog1.filter (fun r => regexTest sp r.filePath)
        let catalog2 := sourceFiles.foldl (fun c r => catalogUpsert c (copyDescRecord uid now sp dp r)) catalog1
        let st2 : St := { st1 with catalog := catalog2 }
        if f.logFail then (Except.error "Copy failed", st2)
        else
          (Except.ok (), { st2 with logs := st2.logs ++
            [logRec "copy" safeSource (basename (stripTrailingSlashOnce safeSource)) uid (some safeDestination) now] })
  else
    if f.s3Fail then (Except.error "Copy failed", st)
    else if !(st.store.contains (buildKey b safeSource)) then (Except.error "NoSuchKey", st)
    else
      let st1 : St := { st with store := storePut st.store (buildKey b safeDestination) }
      if f.catalogFail then (Except.error "Copy failed", st1)
      else
        let srcSize := ((st1.catalog.find? (fun r => r.filePath = safeSource)).map FileRec.size).getD 0
        let copied : FileRec :=
          { filePath := safeDestination, fileName := basename safeDestination, size := srcSize,
            isFolder := false, userId := uid, updatedAt := now }
        let st2 : St := { st1 with catalog := catalogUpsert st1.catalog copied }
        if f.logFail then (Except.error "Copy failed", st2)
        else
          (Except.ok (), { st2 with logs := st2.logs ++
            [logRec "copy" safeSource (basename (stripTrailingSlashOnce safeSource)) uid (some safeDestination) now] })

/-- Embedding of `DELETE /api/files` (lines 393-417): a key ending in
`/` deletes the store prefix and `deleteMany`s the catalog records
matching the escaped-prefix regex; any other key deletes the single
object and its record. -/
def deleteHandler (f : FailSpec) (b uid : String) (now : Nat) (st : St)
    (key : String) : Except String Unit × St :=
  let k := normalizeKey key
  if k = "" then (Except.error "Missing key", st)
  else if jsEndsWith k "/" then
    if f.s3Fail then (Except.error "Delete failed", st)
    else
      let st1 : St := { st with store := deleteS3PrefixFn b st.store k }
      if f.catalogFail then (Except.error "Delete failed", st1)
      else
        let st2 : St := { st1 with catalog := st1.catalog.filter (fun r => !(regexTest k r.filePath)) }
        if f.logFail then (Except.error "Delete failed", st2)
        else
          (Except.ok (), { st2 with logs := st2.logs ++
            [logRec "folder_delete" k (basename (stripTrailingSlashOnce k)) uid none now] })
  else
    if f.s3Fail then (Except.error "Delete failed", st)
    else
      let st1 : St := { st with store := st.store.filter (fun s => !(s = buildKey b k)) }
      if f.catalogFail then (Except.error "Delete failed", st1)
      else
        let st2 : St := { st1 with catalog := catalogDeleteOne st1.catalog k }
        if f.logFail then (Except.error "Delete failed", st2)
        else
          (Except.ok (), { st2 with logs := st2.logs ++
            [logRec "delete" k (basename k) uid none now] })

/-! ## The list endpoint (`GET /api/files`, lines 176-205) -/

/-- An entry of the list response. -/
structure FileEntry where
  key : String
  size : Nat
  lastModified : Nat
deriving DecidableEq

/-- The JavaScript-side filter of the list handler (lines 185-193):
keep a row when its key starts with the prefix and the remainder is
non-empty with no slash, or with exactly one slash at the end. -/
def keepOneLevel (pfx key : String) : Bool :=
  if !(jsStartsWith key pfx) then false
  else
    let relative : List Char := key.data.drop pfx.data.length
    if relative.isEmpty then false
    else
      let slashCount := relative.count '/'
      if slashCount = 0 then true
      else slashCount = 1 && jsEndsWith (String.mk relative) "/"

/-- Mongo's ascending sort key on `filePath`. -/
def pathLe (a c : FileRec) : Prop := a.filePath ≤ c.filePath

instance : DecidableRel pathLe := fun a c => inferInstanceAs (Decidable (a.filePath ≤ c.filePath))

instance : IsTotal FileRec pathLe := ⟨fun a c => le_total a.filePath c.filePath⟩

instance : IsTrans FileRec pathLe := ⟨fun _ _ _ h1 h2 => le_trans h1 h2⟩

/-- Embedding of the `GET /api/files` handler: normalize the prefix,
query the catalog with the anchored escaped-prefix regex sorted by
`filePath` ascending, then keep one directory level and project the
response fields. -/
def listFiles (catalog : List FileRec) (rawPfx : String) : List FileEntry :=
  let pfx := normalizeKey rawPfx
  let rows := List.insertionSort pathLe (catalog.filter (fun r => regexTest pfx r.filePath))
  (rows.filter (fun r => keepOneLevel pfx r.filePath)).map
    (fun r => { key := r.filePath, size := r.size, lastModified := r.updatedAt })

/-- Whether a handler outcome is an error response (a 4xx/5xx JSON
answer rather than `ok: true`). -/
def isErr : Except String Unit → Bool
  | Except.error _ => true
  | Except.ok _ => false

/-- A regular path segment: non-empty, not `"."`, not `".."`, and free
of separators (the segments that survive normalization). -/
def Reg (s : List Char) : Prop := s ≠ [] ∧ s ≠ ['.'] ∧ s ≠ ['.', '.'] ∧ '/' ∉ s

/-- A store response sequence whose first page claims truncation but
carries no continuation token, followed by a final untruncated page. -/
def cexPages : List ListPage := [⟨[], true, none⟩, ⟨[], false, none⟩]

/-! ## Theorems -/

/-- The escaped pattern built by `escapeRegex` matches (anchored)
exactly the subjects that start with the literal prefix, and never
leaves the literal fragment. -/
theorem matchEscaped_escape (p : List Char) :
    ∀ cs : List Char, matchEscaped (escapeRegexChars p) cs = some (p.isPrefixOf cs) := by
  induction p with
  | nil => intro cs; simp [escapeRegexChars, matchEscaped, List.isPrefixOf]
  | cons a p ih =>
    intro cs
    by_cases hm : isRegexMeta a
    · have h1 : escapeRegexChars (a :: p) = '\\' :: a :: escapeRegexChars p := by
        simp [escapeRegexChars, hm]
      rw [h1, matchEscaped.eq_def]
      cases cs with
      | nil => simp [hm, List.isPrefixOf]
      | cons c cs2 =>
        by_cases hac : a = c
        · subst hac; simp [hm, ih, List.isPrefixOf]
        · simp [hm, hac, List.isPrefixOf, beq_iff_eq]
    · have hbs : ¬ a = '\\' := by
        intro h
        exact hm (by rw [h]; rfl)
      have h1 : escapeRegexChars (a :: p) = a :: escapeRegexChars p := by
        simp [escapeRegexChars, hm]
      rw [h1, matchEscaped.eq_def]
      cases cs with
      | nil => simp [hm, hbs, List.isPrefixOf]
      | cons c cs2 =>
        by_cases hac : a = c
        · subst hac; simp [hm, hbs, ih, List.isPrefixOf]
        · simp [hm, hbs, hac, List.isPrefixOf, beq_iff_eq]

/-- The catalog regex test is literal-prefix matching. -/
theorem regexTest_eq_startsWith (pfx s : String) :
    regexTest pfx s = jsStartsWith s pfx := by
  simp [regexTest, jsStartsWith, matchEscaped_escape]

/-- After `storePut` the key is present. -/
theorem storePut_contains (s : List String) (k : String) :
    (storePut s k).contains k = true := by
  unfold storePut
  by_cases h : s.contains k
  · rw [if_pos h]; exact h
  · rw [if_neg h]; simp

/-- C10: there are non-empty raw inputs — such as `"a/.."` — that
physically resolve to the store root yet normalize to the non-empty
key `"."`, so they pass the handlers' non-empty key validation and the
operation proceeds on the literal key `"."`: here the delete handler
answers `ok` and deletes the store object at the built key `"base/."`. -/
theorem C10_dot_key_passes_validation :
    normalizeKey "a/.." = "." ∧
    normalizeKey "a/.." ≠ "" ∧
    physResolve [['r'], ['t']] (normalizeKey "a/..").data = [['r'], ['t']] ∧
    (deleteHandler noFail "base/" "u" 7 ⟨["base/."], [], []⟩ "a/..").1 = Except.ok () ∧
    (deleteHandler noFail "base/" "u" 7 ⟨["base/."], [], []⟩ "a/..").2.store = [] := by
  exact ⟨by decide, by decide, by decide, by decide, by decide⟩

/-- C9 counterexample: the response sequence `cexPages` eventually
reports no further pages (its second page is untruncated), yet the walk
loop stops after the first request — the first page is truncated but
its continuation token is absent, which is falsy in the loop condition
`while (continuationToken)` — so it does not stop at the first
untruncated page and does not request each page. -/
theorem C9_counterexample :
    cexPages.map ListPage.isTruncated = [true, false] ∧
    walkRequests none cexPages = [none] := by
  exact ⟨by decide, by decide⟩

/-- C9 (amended): when every page before the first untruncated one is
truncated and carries a truthy (present, non-empty) continuation
token, the walk terminates at the first untruncated page, having
requested each page exactly once, each request carrying the token
returned by the previous page (the first carrying none). -/
theorem C9_walk_requests_each_page_once (pre post : List ListPage) (p : ListPage)
    (hpre : ∀ q ∈ pre, q.isTruncated = true ∧ tokenTruthy q.nextContinuationToken = true)
    (hp : p.isTruncated = false) :
    ∀ tok, walkRequests tok (pre ++ p :: post) =
      tok :: pre.map ListPage.nextContinuationToken := by
  induction pre with
  | nil =>
    intro tok
    simp [walkRequests, hp, tokenTruthy]
  | cons q pre ih =>
    intro tok
    have hq := hpre q (by simp)
    have hrest : ∀ r ∈ pre, r.isTruncated = true ∧ tokenTruthy r.nextContinuationToken = true :=
      fun r hr => hpre r (by simp [hr])
    simp [walkRequests, hq.1, hq.2, ih hrest]

/-- Witness for the amended C9 at a concrete two-page sequence. -/
theorem C9_walk_requests_witness :
    walkRequests none ([⟨["k1"], true, some "t1"⟩] ++
        (⟨["k2"], false, none⟩ : ListPage) :: []) = [none, some "t1"] := by
  have h := C9_walk_requests_each_page_once [⟨["k1"], true, some "t1"⟩] []
    ⟨["k2"], false, none⟩ (by decide) rfl none
  simpa using h

/-- C4 counterexample: with the store call succeeding and the catalog
upsert failing, the upload handler's store mutation is applied (the
object is present afterwards) yet the handler answers with its error
response, not its success response — the failure after store success is
propagated as the operation's own error. -/
theorem C4_counterexample :
    (uploadHandler ⟨false, true, false⟩ "r/" "u" 5 ⟨[], [], []⟩ "a.txt" "xx" "t").2.store
        = ["r/a.txt"] ∧
    (uploadHandler ⟨false, true, false⟩ "r/" "u" 5 ⟨[], [], []⟩ "a.txt" "xx" "t").1
        ≠ Except.ok () := by
  exact ⟨by decide, by decide⟩

/-- C4 (amended): for every mutation in which the object-store call
succeeds, a subsequent failure of the catalog upsert/delete or of the
activity-log append IS propagated as the operation's own error — the
handler body runs in a single `try/catch` whose `catch` sends the
failure response — while the store mutation stays applied (shown for
the upload handler by the presence of the uploaded key). -/
theorem C4_catalog_or_log_failure_propagates (f : FailSpec) (hs3 : f.s3Fail = false)
    (hfail : f.catalogFail = true ∨ f.logFail = true)
    (b uid : String) (now : Nat) (st : St) :
    (∀ key content ct, normalizeKey key ≠ "" → content ≠ "" →
       isErr (uploadHandler f b uid now st key content ct).1 = true ∧
       (uploadHandler f b uid now st key content ct).2.store.contains
         (buildKey b (normalizeKey key)) = true) ∧
    (∀ key, normalizeKey key ≠ "" →
       isErr (createFolderHandler f b uid now st key).1 = true) ∧
    (∀ src dst, normalizeKey src ≠ "" → normalizeKey dst ≠ "" →
       (jsEndsWith (normalizeKey src) "/" = true ∨
        st.store.contains (buildKey b (normalizeKey src)) = true) →
       isErr (copyHandler f b uid now st src dst).1 = true) ∧
    (∀ key, normalizeKey key ≠ "" →
       isErr (deleteHandler f b uid now st key).1 = true) := by
  by_cases hc : f.catalogFail
  all_goals {
    refine ⟨?_, ?_, ?_, ?_⟩
    · intro key content ct hk hcont
      unfold uploadHandler
      rw [if_neg (by simp [hk, hcont]), if_neg (by simp [hs3])]
      first
      | (rw [if_pos hc]
         exact ⟨rfl, storePut_contains _ _⟩)
      | (rw [if_neg hc, if_pos (hfail.resolve_left hc)]
         exact ⟨rfl, storePut_contains _ _⟩)
    · intro key hk
      unfold createFolderHandler
      rw [if_neg hk, if_neg (by simp [hs3])]
      first
      | (rw [if_pos hc]; rfl)
      | (rw [if_neg hc, if_pos (hfail.resolve_left hc)]; rfl)
    · intro src dst hsrc hdst hexists
      unfold copyHandler
      rw [if_neg (by simp [hsrc, hdst])]
      by_cases hfold : jsEndsWith (normalizeKey src) "/"
      · rw [if_pos hfold, if_neg (by simp [hs3])]
        first
        | (rw [if_pos hc]; rfl)
        | (rw [if_neg hc, if_pos (hfail.resolve_left hc)]; rfl)
      · have hmem : st.store.contains (buildKey b (normalizeKey src)) = true := by
          rcases hexists with h | h
          · exact absurd h (by simp [hfold])
          · exact h
        rw [if_neg hfold, if_neg (by simp [hs3]), if_neg (by rw [hmem]; simp)]
        first
        | (rw [if_pos hc]; rfl)
        | (rw [if_neg hc, if_pos (hfail.resolve_left hc)]; rfl)
    · intro key hk
      unfold deleteHandler
      rw [if_neg hk]
      by_cases hfold : jsEndsWith (normalizeKey key) "/"
      · rw [if_pos hfold, if_neg (by simp [hs3])]
        first
        | (rw [if_pos hc]; rfl)
        | (rw [if_neg hc, if_pos (hfail.resolve_left hc)]; rfl)
      · rw [if_neg hfold, if_neg (by simp [hs3])]
        first
        | (rw [if_pos hc]; rfl)
        | (rw [if_neg hc, if_pos (hfail.resolve_left hc)]; rfl)
  }

/-- Witness for the amended C4: catalog failure after a successful
store put on a concrete upload. -/
theorem C4_catalog_or_log_failure_propagates_witness :
    isErr (uploadHandler ⟨false, true, false⟩ "r/" "u" 5 ⟨[], [], []⟩ "a.txt" "xx" "t").1 = true ∧
    (uploadHandler ⟨false, true, false⟩ "r/" "u" 5 ⟨[], [], []⟩ "a.txt" "xx" "t").2.store.contains
      (buildKey "r/" (normalizeKey "a.txt")) = true := by
  exact (C4_catalog_or_log_failure_propagates ⟨false, true, false⟩ rfl (Or.inl rfl)
    "r/" "u" 5 ⟨[], [], []⟩).1 "a.txt" "xx" "t" (by decide) (by decide)

/-- C7: if the object-store call fails, every mutation handler
(upload, create-folder, copy, delete) answers with an error and leaves
the whole state — in particular the catalog — unchanged: the store
mutation comes first and no catalog upsert or delete happens on store
failure. -/
theorem C7_store_failure_leaves_catalog (f : FailSpec) (hs3 : f.s3Fail = true)
    (b uid : String) (now : Nat) (st : St) :
    (∀ key content ct, (uploadHandler f b uid now st key content ct).2 = st ∧
       isErr (uploadHandler f b uid now st key content ct).1 = true) ∧
    (∀ key, (createFolderHandler f b uid now st key).2 = st ∧
       isErr (createFolderHandler f b uid now st key).1 = true) ∧
    (∀ src dst, (copyHandler f b uid now st src dst).2 = st ∧
       isErr (copyHandler f b uid now st src dst).1 = true) ∧
    (∀ key, (deleteHandler f b uid now st key).2 = st ∧
       isErr (deleteHandler f b uid now st key).1 = true) := by
  obtain ⟨s3, cat, lg⟩ := f
  cases hs3
  refine ⟨?_, ?_, ?_, ?_⟩
  · intro key content ct
    by_cases hv : normalizeKey key = "" ∨ content = "" <;>
      simp [uploadHandler, hv, isErr]
  · intro key
    by_cases hv : normalizeKey key = "" <;>
      simp [createFolderHandler, hv, isErr]
  · intro src dst
    by_cases hv : normalizeKey src = "" ∨ normalizeKey dst = "" <;>
      by_cases hfold : jsEndsWith (normalizeKey src) "/" <;>
        simp [copyHandler, hv, hfold, isErr]
  · intro key
    by_cases hv : normalizeKey key = "" <;>
      by_cases hfold : jsEndsWith (normalizeKey key) "/" <;>
        simp [deleteHandler, hv, hfold, isErr]

/-- Witness for C7: a failing store call on a concrete upload leaves
the state unchanged. -/
theorem C7_store_failure_leaves_catalog_witness :
    (uploadHandler ⟨true, false, false⟩ "r/" "u" 5 ⟨["r/z"], [], []⟩ "a.txt" "xx" "t").2
        = (⟨["r/z"], [], []⟩ : St) ∧
    isErr (uploadHandler ⟨true, false, false⟩ "r/" "u" 5 ⟨["r/z"], [], []⟩ "a.txt" "xx" "t").1 = true := by
  exact (C7_store_failure_leaves_catalog ⟨true, false, false⟩ rfl
    "r/" "u" 5 ⟨["r/z"], [], []⟩).1 "a.txt" "xx" "t"

/-- A singleton list is a prefix exactly when it is the head. -/
theorem singleton_prefix_head (c : Char) (l : List Char) : [c] <+: l ↔ l.head? = some c := by
  cases l with
  | nil => simp
  | cons a l =>
    constructor
    · intro h
      rcases List.cons_prefix_cons.mp h with ⟨h1, _⟩
      simp [h1]
    · intro h
      simp only [List.head?_cons, Option.some.injEq] at h
      exact List.cons_prefix_cons.mpr ⟨h.symm, List.nil_prefix⟩

/-- Ending with `"/"` is having `'/'` as the last character. -/
theorem jsEndsWith_slash_iff (s : String) :
    jsEndsWith s "/" = true ↔ s.data.getLast? = some '/' := by
  have h1 : jsEndsWith s "/" = (['/'] : List Char).isPrefixOf s.data.reverse := rfl
  rw [h1, List.isPrefixOf_iff_prefix, singleton_prefix_head, List.head?_reverse]

/-- C5 counterexample: copying the folder-prefix source `"src/"`, which
does not exist in the (empty) object store — no store key starts with
the built source prefix — returns the success response, not an error. -/
theorem C5_counterexample :
    (copyHandler noFail "r/" "u" 5 ⟨[], [], []⟩ "src/" "dst").1 = Except.ok () ∧
    ((⟨[], [], []⟩ : St).store.filter (fun k => jsStartsWith k (buildKey "r/" "src/"))) = [] := by
  exact ⟨by decide, by decide⟩

/-- C5 (amended): a copy whose source is a file key absent from the
store fails with the store's `NoSuchKey` error; a copy whose source is
a folder prefix returns success even when nothing exists under the
source prefix (the destination folder marker is created and the walk
copies nothing). -/
theorem C5_missing_source (b uid : String) (now : Nat) (st : St) (src dst : String)
    (hsrc : normalizeKey src ≠ "") (hdst : normalizeKey dst ≠ "") :
    (jsEndsWith (normalizeKey src) "/" = false →
      st.store.contains (buildKey b (normalizeKey src)) = false →
      (copyHandler noFail b uid now st src dst).1 = Except.error "NoSuchKey") ∧
    (jsEndsWith (normalizeKey src) "/" = true →
      (copyHandler noFail b uid now st src dst).1 = Except.ok ()) := by
  constructor
  · intro hfold hmem
    unfold copyHandler
    rw [if_neg (by simp [hsrc, hdst]), if_neg (by simp [hfold])]
    rw [if_neg (by simp [noFail]), if_pos (by rw [hmem]; rfl)]
  · intro hfold
    unfold copyHandler
    rw [if_neg (by simp [hsrc, hdst]), if_pos hfold]
    rfl

/-- Witness for the amended C5 on concrete states: a missing file
source errors, a missing folder-prefix source succeeds. -/
theorem C5_missing_source_witness :
    (copyHandler noFail "r/" "u" 5 ⟨["r/z"], [], []⟩ "a.txt" "b.txt").1 = Except.error "NoSuchKey" ∧
    (copyHandler noFail "r/" "u" 5 ⟨["r/z"], [], []⟩ "src/" "dst").1 = Except.ok () := by
  exact ⟨(C5_missing_source "r/" "u" 5 ⟨["r/z"], [], []⟩ "a.txt" "b.txt"
            (by decide) (by decide)).1 (by decide) (by decide),
         (C5_missing_source "r/" "u" 5 ⟨["r/z"], [], []⟩ "src/" "dst"
            (by decide) (by decide)).2 (by decide)⟩

/-- C6 counterexample: copying the prefix `"src/"` to `"dst"` with a
catalog record `{filePath := "src/x", fileName := "n", isFolder :=
true}` writes the destination record for the recomputed path `"dst/x"`
with `isFolder = true` although `"dst/x"` does not end in `/` (the
source record's stored `isFolder` leaks through the `||`), and with
`fileName = "n"` (the source record's name), not the final path segment
`"x"` of the new path. -/
theorem C6_counterexample :
    ((copyHandler noFail "r/" "u" 5 ⟨["r/src/x", "r/y"], [⟨"src/x", "n", 3, true, "u", 0⟩], []⟩
        "src/" "dst").2.catalog.find? (fun r => r.filePath == "dst/x")
      = some ⟨"dst/x", "n", 3, true, "u", 5⟩) ∧
    jsEndsWith "dst/x" "/" = false ∧
    basename "dst/x" = "x" := by
  exact ⟨by decide, by decide, by decide⟩

/-- C6 (amended): for every proper descendant record under the source
prefix, the destination record's `isFolder` is the OR of the source
record's stored `isFolder` and whether the recomputed destination path
ends in `/` (equivalently, whether the source path ends in `/`), and
its `fileName` is copied from the source record whenever that is
non-empty (the final segment of the new path is only a fallback for
records with an empty `fileName`). -/
theorem C6_descendant_record_fields (uid : String) (now : Nat) (sp dp : String) (r : FileRec)
    (hstart : jsStartsWith r.filePath sp = true) (hne : r.filePath ≠ sp) :
    ((copyDescRecord uid now sp dp r).isFolder
        = (r.isFolder || jsEndsWith r.filePath "/")) ∧
    (r.fileName ≠ "" → (copyDescRecord uid now sp dp r).fileName = r.fileName) := by
  have hpre : sp.data <+: r.filePath.data := List.isPrefixOf_iff_prefix.mp hstart
  have happ : sp.data ++ r.filePath.data.drop sp.data.length = r.filePath.data :=
    List.prefix_iff_eq_append.mp hpre
  have hrel : r.filePath.data.drop sp.data.length ≠ [] := by
    intro h
    apply hne
    apply String.ext
    rw [← happ, h, List.append_nil]
  have hlast : (dp.data ++ r.filePath.data.drop sp.data.length).getLast?
      = r.filePath.data.getLast? := by
    rw [List.getLast?_append_of_ne_nil _ hrel]
    conv_rhs => rw [← happ]
    rw [List.getLast?_append_of_ne_nil _ hrel]
  have hends : jsEndsWith (String.mk (dp.data ++ r.filePath.data.drop sp.data.length)) "/"
      = jsEndsWith r.filePath "/" := by
    rw [Bool.eq_iff_iff, jsEndsWith_slash_iff, jsEndsWith_slash_iff]
    show (dp.data ++ r.filePath.data.drop sp.data.length).getLast? = some '/' ↔ _
    rw [hlast]
  constructor
  · show (r.isFolder || jsEndsWith (String.mk (dp.data ++ r.filePath.data.drop sp.data.length)) "/")
        = (r.isFolder || jsEndsWith r.filePath "/")
    rw [hends]
  · intro hn
    simp only [copyDescRecord, if_neg hn]

/-- Witness for the amended C6 at a concrete descendant record. -/
theorem C6_descendant_record_fields_witness :
    (copyDescRecord "u" 5 "src/" "dst/" ⟨"src/x", "n", 3, true, "u", 0⟩).isFolder
        = (true || jsEndsWith "src/x" "/") ∧
    (copyDescRecord "u" 5 "src/" "dst/" ⟨"src/x", "n", 3, true, "u", 0⟩).fileName = "n" := by
  have h := C6_descendant_record_fields "u" 5 "src/" "dst/" ⟨"src/x", "n", 3, true, "u", 0⟩
    (by decide) (by decide)
  exact ⟨h.1, h.2 (by decide)⟩

/-- `splitSlash` never returns the empty list. -/
theorem splitSlash_ne_nil (cs : List Char) : splitSlash cs ≠ [] := by
  induction cs with
  | nil => simp [splitSlash]
  | cons c cs ih =>
    by_cases h : c = '/'
    · simp [splitSlash, h]
    · simp only [splitSlash, if_neg h]
      cases hs : splitSlash cs with
      | nil => simp [consHead]
      | cons s ss => simp [consHead]

/-- Segments produced by `splitSlash` contain no separator. -/
theorem mem_splitSlash_no_slash (cs : List Char) :
    ∀ s ∈ splitSlash cs, '/' ∉ s := by
  induction cs with
  | nil =>
    intro s hs
    simp [splitSlash] at hs
    simp [hs]
  | cons c cs ih =>
    intro s hs
    by_cases h : c = '/'
    · simp only [splitSlash, if_pos h, List.mem_cons] at hs
      rcases hs with hs | hs
      · simp [hs]
      · exact ih s hs
    · simp only [splitSlash, if_neg h] at hs
      cases hsp : splitSlash cs with
      | nil => exact absurd hsp (splitSlash_ne_nil cs)
      | cons s1 ss =>
        rw [hsp] at hs
        simp only [consHead, List.mem_cons] at hs
        rcases hs with hs | hs
        · subst hs
          intro hmem
          rcases List.mem_cons.mp hmem with h1 | h1
          · exact h h1.symm
          · exact ih s1 (hsp ▸ List.mem_cons_self s1 ss) h1
        · exact ih s (hsp ▸ List.mem_cons_of_mem s1 hs)

/-- Characters of `splitSlash` segments come from the input. -/
theorem mem_of_mem_splitSlash (cs : List Char) :
    ∀ s ∈ splitSlash cs, ∀ a ∈ s, a ∈ cs := by
  induction cs with
  | nil =>
    intro s hs a ha
    simp [splitSlash] at hs
    subst hs
    simp at ha
  | cons c cs ih =>
    intro s hs a ha
    by_cases h : c = '/'
    · simp only [splitSlash, if_pos h, List.mem_cons] at hs
      rcases hs with hs | hs
      · subst hs; simp at ha
      · exact List.mem_cons_of_mem c (ih s hs a ha)
    · simp only [splitSlash, if_neg h] at hs
      cases hsp : splitSlash cs with
      | nil => exact absurd hsp (splitSlash_ne_nil cs)
      | cons s1 ss =>
        rw [hsp] at hs
        simp only [consHead, List.mem_cons] at hs
        rcases hs with hs | hs
        · subst hs
          rcases List.mem_cons.mp ha with h1 | h1
          · simp [h1]
          · exact List.mem_cons_of_mem c (ih s1 (hsp ▸ List.mem_cons_self s1 ss) a h1)
        · exact List.mem_cons_of_mem c (ih s (hsp ▸ List.mem_cons_of_mem s1 hs) a ha)

/-- A slash-free list splits into one segment. -/
theorem splitSlash_single (s : List Char) (h : '/' ∉ s) : splitSlash s = [s] := by
  induction s with
  | nil => rfl
  | cons c cs ih =>
    have hc : ¬ c = '/' := fun hh => h (hh ▸ List.mem_cons_self c cs)
    have h2 : '/' ∉ cs := fun hh => h (List.mem_cons_of_mem _ hh)
    simp [splitSlash, hc, ih h2, consHead]

/-- Splitting across the first separator. -/
theorem splitSlash_sep (s t : List Char) (h : '/' ∉ s) :
    splitSlash (s ++ '/' :: t) = s :: splitSlash t := by
  induction s with
  | nil => simp [splitSlash]
  | cons c cs ih =>
    have hc : ¬ c = '/' := fun hh => h (hh ▸ List.mem_cons_self c cs)
    have h2 : '/' ∉ cs := fun hh => h (List.mem_cons_of_mem _ hh)
    rw [List.cons_append]
    simp only [splitSlash, if_neg hc, ih h2, consHead]

/-- `splitSlash` inverts `joinSlash` on slash-free segments. -/
theorem splitSlash_join (l : List (List Char)) (hne : l ≠ []) (h : ∀ s ∈ l, '/' ∉ s) :
    splitSlash (joinSlash l) = l := by
  induction l with
  | nil => exact absurd rfl hne
  | cons s l ih =>
    cases l with
    | nil => simpa [joinSlash] using splitSlash_single s (h s (List.mem_cons_self s []))
    | cons s2 l2 =>
      rw [joinSlash, splitSlash_sep s _ (h s (List.mem_cons_self _ _)),
        ih (by simp) (fun u hu => h u (List.mem_cons_of_mem s hu))]

/-- Splitting after appending a final separator adds one empty segment. -/
theorem splitSlash_append_slash (l : List Char) :
    splitSlash (l ++ ['/']) = splitSlash l ++ [[]] := by
  induction l with
  | nil => rfl
  | cons c cs ih =>
    by_cases h : c = '/'
    · simp [splitSlash, h, ih]
    · rw [List.cons_append]
      simp only [splitSlash, if_neg h, ih]
      cases hs : splitSlash cs with
      | nil => exact absurd hs (splitSlash_ne_nil cs)
      | cons s ss => simp [consHead]

/-- Joining non-empty segments yields a non-empty list. -/
theorem joinSlash_ne_nil (l : List (List Char)) (hne : l ≠ []) (h : ∀ s ∈ l, s ≠ []) :
    joinSlash l ≠ [] := by
  cases l with
  | nil => exact absurd rfl hne
  | cons s l =>
    cases l with
    | nil => simpa [joinSlash] using h s (List.mem_cons_self s [])
    | cons s2 l2 => simp [joinSlash]

/-- Every character of a join is a separator or comes from a segment. -/
theorem mem_joinSlash (l : List (List Char)) :
    ∀ a ∈ joinSlash l, a = '/' ∨ ∃ s ∈ l, a ∈ s := by
  induction l using joinSlash.induct with
  | case1 => intro a ha; simp [joinSlash] at ha
  | case2 s => intro a ha; right; exact ⟨s, by simp, by simpa [joinSlash] using ha⟩
  | case3 s s2 ss ih =>
    intro a ha
    rw [joinSlash] at ha
    rcases List.mem_append.mp ha with ha | ha
    · right; exact ⟨s, by simp, ha⟩
    · rcases List.mem_cons.mp ha with ha | ha
      · left; exact ha
      · rcases ih a ha with h1 | ⟨u, hu, hau⟩
        · left; exact h1
        · right; exact ⟨u, List.mem_cons_of_mem s hu, hau⟩

/-- The head of a join is the head of the first segment. -/
theorem head?_joinSlash (s : List Char) (l : List (List Char)) (h : s ≠ []) :
    (joinSlash (s :: l)).head? = s.head? := by
  cases l with
  | nil => rfl
  | cons s2 l2 =>
    rw [joinSlash]
    cases s with
    | nil => exact absurd rfl h
    | cons c cs => simp

/-- A join headed by a further segment expands by one separator. -/
theorem joinSlash_cons_of_ne_nil (s : List Char) (l : List (List Char)) (h : l ≠ []) :
    joinSlash (s :: l) = s ++ '/' :: joinSlash l := by
  cases l with
  | nil => exact absurd rfl h
  | cons s2 l2 => rfl

/-- The last character of a join is the last of the final segment. -/
theorem getLast?_joinSlash (l : List (List Char)) (s : List Char)
    (h : ∀ t ∈ l, t ≠ []) (hs : s ≠ []) :
    (joinSlash (l ++ [s])).getLast? = s.getLast? := by
  induction l with
  | nil => rfl
  | cons t l ih =>
    rw [List.cons_append, joinSlash_cons_of_ne_nil t _ (by simp),
      List.getLast?_append_of_ne_nil _ (by simp)]
    have hj : joinSlash (l ++ [s]) ≠ [] := by
      apply joinSlash_ne_nil _ (by simp)
      intro u hu
      rcases List.mem_append.mp hu with hu | hu
      · exact h u (List.mem_cons_of_mem t hu)
      · simp at hu; subst hu; exact hs
    cases hcase : joinSlash (l ++ [s]) with
    | nil => exact absurd hcase hj
    | cons x xs =>
      rw [List.getLast?_cons_cons, ← hcase]
      exact ih (fun u hu => h u (List.mem_cons_of_mem t hu))

/-- Invariant of Node's segment-resolution fold: the accumulator is a
block of regular segments (stack top) over a block of `".."` segments
(stack bottom), the `".."` block being empty for absolute paths; every
regular segment in the result was an input segment. -/
theorem foldl_normStep_shape (allow : Bool) (segs : List (List Char)) :
    ∀ (r d : List (List Char)),
      (∀ s ∈ segs, '/' ∉ s) →
      (∀ s ∈ d, s = ['.', '.']) →
      (∀ s ∈ r, Reg s) →
      (allow = false → d = []) →
      ∃ r2 d2, segs.foldl (normStep allow) (r ++ d) = r2 ++ d2 ∧
        (∀ s ∈ d2, s = ['.', '.']) ∧
        (∀ s ∈ r2, Reg s ∧ (s ∈ r ∨ s ∈ segs)) ∧
        (allow = false → d2 = []) := by
  induction segs with
  | nil =>
    intro r d _ hd hr hallow
    exact ⟨r, d, rfl, hd, fun s hs => ⟨hr s hs, Or.inl hs⟩, hallow⟩
  | cons seg segs ih =>
    intro r d hsegs hd hr hallow
    have hsegs2 : ∀ s ∈ segs, '/' ∉ s := fun s hs => hsegs s (List.mem_cons_of_mem _ hs)
    rw [List.foldl_cons]
    by_cases h1 : seg = [] ∨ seg = ['.']
    · rw [show normStep allow (r ++ d) seg = r ++ d by simp [normStep, h1]]
      obtain ⟨r2, d2, heq, hd2, hr2, ha2⟩ := ih r d hsegs2 hd hr hallow
      exact ⟨r2, d2, heq, hd2,
        fun s hs => ⟨(hr2 s hs).1, (hr2 s hs).2.imp id (List.mem_cons_of_mem _)⟩, ha2⟩
    · by_cases h2 : seg = ['.', '.']
      · subst h2
        cases r with
        | nil =>
          cases d with
          | nil =>
            by_cases ha : allow
            · rw [show normStep allow ([] ++ ([] : List (List Char))) ['.', '.']
                  = [] ++ [['.', '.']] by simp [normStep, ha]]
              obtain ⟨r2, d2, heq, hd2, hr2, ha2⟩ := ih [] [['.', '.']] hsegs2
                (by intro s hs; simpa using hs) (by simp) (by intro hfalse; rw [hfalse] at ha; simp at ha)
              exact ⟨r2, d2, heq, hd2,
                fun s hs => ⟨(hr2 s hs).1,
                  Or.inr (List.mem_cons_of_mem _ ((hr2 s hs).2.resolve_left (by simp)))⟩, ha2⟩
            · rw [show normStep allow ([] ++ ([] : List (List Char))) ['.', '.']
                  = [] ++ ([] : List (List Char)) by simp [normStep, ha]]
              obtain ⟨r2, d2, heq, hd2, hr2, ha2⟩ := ih [] [] hsegs2 (by simp) (by simp) (fun _ => rfl)
              exact ⟨r2, d2, heq, hd2,
                fun s hs => ⟨(hr2 s hs).1,
                  Or.inr (List.mem_cons_of_mem _ ((hr2 s hs).2.resolve_left (by simp)))⟩, ha2⟩
          | cons t ds =>
            have ht : t = ['.', '.'] := hd t (List.mem_cons_self t ds)
            have ha : allow = true := by
              cases hallow2 : allow
              · exact absurd (hallow hallow2) (by simp)
              · rfl
            subst ht
            rw [show normStep allow ([] ++ ['.', '.'] :: ds) ['.', '.']
                = [] ++ (['.', '.'] :: ['.', '.'] :: ds) by simp [normStep, ha]]
            obtain ⟨r2, d2, heq, hd2, hr2, ha2⟩ := ih [] (['.', '.'] :: ['.', '.'] :: ds) hsegs2
              (by intro s hs
                  rcases List.mem_cons.mp hs with hs | hs
                  · exact hs
                  · rcases List.mem_cons.mp hs with hs | hs
                    · exact hs
                    · exact hd s (List.mem_cons_of_mem _ hs))
              (by simp) (by intro hfalse; rw [hfalse] at ha; exact absurd ha (by simp))
            exact ⟨r2, d2, heq, hd2,
              fun s hs => ⟨(hr2 s hs).1,
                Or.inr (List.mem_cons_of_mem _ ((hr2 s hs).2.resolve_left (by simp)))⟩, ha2⟩
        | cons a rs =>
          have ha2 : ¬ a = ['.', '.'] := (hr a (List.mem_cons_self a rs)).2.2.1
          rw [show normStep allow ((a :: rs) ++ d) ['.', '.'] = rs ++ d by
            simp [normStep, ha2]]
          obtain ⟨r2, d2, heq, hd2, hr2, hall2⟩ := ih rs d hsegs2 hd
            (fun s hs => hr s (List.mem_cons_of_mem a hs)) hallow
          exact ⟨r2, d2, heq, hd2,
            fun s hs => ⟨(hr2 s hs).1, ((hr2 s hs).2).imp (List.mem_cons_of_mem a)
              (List.mem_cons_of_mem _)⟩, hall2⟩
      · have hreg : Reg seg :=
          ⟨(not_or.mp h1).1, (not_or.mp h1).2, h2, hsegs seg (List.mem_cons_self seg segs)⟩
        rw [show normStep allow (r ++ d) seg = (seg :: r) ++ d by simp [normStep, h1, h2]]
        obtain ⟨r2, d2, heq, hd2, hr2, hall2⟩ := ih (seg :: r) d hsegs2 hd
          (by intro s hs
              rcases List.mem_cons.mp hs with hs | hs
              · exact hs ▸ hreg
              · exact hr s hs) hallow
        refine ⟨r2, d2, heq, hd2, fun s hs => ⟨(hr2 s hs).1, ?_⟩, hall2⟩
        rcases (hr2 s hs).2 with hmem | hmem
        · rcases List.mem_cons.mp hmem with hmem | hmem
          · exact Or.inr (hmem ▸ List.mem_cons_self seg segs)
          · exact Or.inl hmem
        · exact Or.inr (List.mem_cons_of_mem _ hmem)

/-- Normalized segments are a run of `".."` followed by regular input
segments; no `".."` survives for an absolute path. -/
theorem normSegs_shape (allow : Bool) (segs : List (List Char))
    (hsegs : ∀ s ∈ segs, '/' ∉ s) :
    ∃ k rest, normSegs allow segs = List.replicate k ['.', '.'] ++ rest ∧
      (∀ s ∈ rest, Reg s ∧ s ∈ segs) ∧ (allow = false → k = 0) := by
  obtain ⟨r2, d2, heq, hd2, hr2, ha2⟩ :=
    foldl_normStep_shape allow segs [] [] hsegs (by simp) (by simp) (fun _ => rfl)
  refine ⟨d2.length, r2.reverse, ?_, ?_, ?_⟩
  · rw [normSegs]
    rw [show ([] : List (List Char)) ++ ([] : List (List Char)) = [] from rfl] at heq
    rw [heq, List.reverse_append]
    congr 1
    rw [List.eq_replicate_iff]
    exact ⟨by simp, fun b hb => hd2 b (List.mem_reverse.mp hb)⟩
  · intro s hs
    have h := hr2 s (List.mem_reverse.mp hs)
    exact ⟨h.1, h.2.resolve_left (by simp)⟩
  · intro h
    rw [ha2 h]
    rfl

/-- On segments that are regular or empty, the resolution fold keeps
exactly the non-empty segments in order. -/
theorem normSegs_of_reg (allow : Bool) (segs : List (List Char))
    (h : ∀ s ∈ segs, Reg s ∨ s = []) :
    normSegs allow segs = segs.filter (fun s => !s.isEmpty) := by
  have main : ∀ (ss : List (List Char)), (∀ s ∈ ss, Reg s ∨ s = []) →
      ∀ acc, ss.foldl (normStep allow) acc = (ss.filter (fun s => !s.isEmpty)).reverse ++ acc := by
    intro ss
    induction ss with
    | nil => intro _ acc; rfl
    | cons s ss ih =>
      intro hss acc
      rcases hss s (List.mem_cons_self s ss) with hreg | hnil
      · have h1 : ¬ (s = [] ∨ s = ['.']) := by
          rintro (h | h)
          · exact hreg.1 h
          · exact hreg.2.1 h
        rw [List.foldl_cons,
          show normStep allow acc s = s :: acc by simp [normStep, h1, hreg.2.2.1],
          ih (fun u hu => hss u (List.mem_cons_of_mem s hu)) (s :: acc)]
        have hne : s.isEmpty = false := by
          cases s with
          | nil => exact absurd rfl hreg.1
          | cons c cs => rfl
        simp [List.filter_cons, hne]
      · subst hnil
        rw [List.foldl_cons, show normStep allow acc [] = acc by simp [normStep],
          ih (fun u hu => hss u (List.mem_cons_of_mem _ hu)) acc]
        simp [List.filter_cons]
  rw [normSegs, main segs h [], List.append_nil, List.reverse_reverse]

/-- Peeling one leading `"../"`. -/
theorem stripDotDot_peel (cs : List Char) :
    stripDotDot ('.' :: '.' :: '/' :: cs) = stripDotDot cs := by
  rw [stripDotDot]
  simp

/-- `stripDotDot` fixes any list that neither starts with `"../"` nor
is exactly `".."`. -/
theorem stripDotDot_of_head (cs : List Char)
    (h : ∀ t, cs ≠ '.' :: '.' :: '/' :: t) (h2 : cs ≠ ['.', '.']) :
    stripDotDot cs = cs := by
  cases cs with
  | nil => rfl
  | cons c1 cs1 =>
    cases cs1 with
    | nil => rfl
    | cons c2 cs2 =>
      cases cs2 with
      | nil =>
        rw [stripDotDot, if_neg]
        rintro ⟨ha, hb⟩
        exact h2 (by rw [ha, hb])
      | cons c3 rest =>
        rw [stripDotDot, if_neg]
        rintro ⟨ha, hb, hc⟩
        exact h rest (by rw [ha, hb, hc])

/-- `stripDotDot` fixes anything that starts with a regular segment. -/
theorem stripDotDot_append_reg (h0 u : List Char) (hreg : Reg h0) :
    stripDotDot (h0 ++ u) = h0 ++ u := by
  apply stripDotDot_of_head
  · intro t hX
    cases h0 with
    | nil => exact hreg.1 rfl
    | cons c1 h1 =>
      cases h1 with
      | nil =>
        rw [List.cons_append, List.nil_append] at hX
        injection hX with ha _
        exact hreg.2.1 (by rw [ha])
      | cons c2 h2 =>
        cases h2 with
        | nil =>
          rw [List.cons_append, List.cons_append, List.nil_append] at hX
          injection hX with ha hX2
          injection hX2 with hb _
          exact hreg.2.2.1 (by rw [ha, hb])
        | cons c3 h3 =>
          rw [List.cons_append, List.cons_append, List.cons_append] at hX
          injection hX with _ hX2
          injection hX2 with _ hX3
          injection hX3 with hc _
          exact hreg.2.2.2 (by rw [hc]; exact List.mem_cons_of_mem _ (List.mem_cons_of_mem _ (List.mem_cons_self _ _)))
  · intro hX
    cases h0 with
    | nil => exact hreg.1 rfl
    | cons c1 h1 =>
      cases h1 with
      | nil =>
        rw [List.cons_append, List.nil_append] at hX
        injection hX with ha hX2
        cases u with
        | nil => simp at hX2
        | cons x xs =>
          exact hreg.2.1 (by rw [ha])
      | cons c2 h2 =>
        cases h2 with
        | nil =>
          rw [List.cons_append, List.cons_append, List.nil_append] at hX
          injection hX with ha hX2
          injection hX2 with hb hX3
          have hu : u = [] := by
            cases u with
            | nil => rfl
            | cons x xs => simp at hX3
          subst hu
          exact hreg.2.2.1 (by rw [ha, hb])
        | cons c3 h3 =>
          rw [List.cons_append, List.cons_append, List.cons_append] at hX
          injection hX with _ hX2
          injection hX2 with _ hX3
          simp at hX3

/-- Stripping removes a leading run of `"../"` produced by `".."`
segments before further content. -/
theorem stripDotDot_dots_then (k : Nat) (rest : List (List Char)) (t : List Char)
    (hne : rest ≠ []) :
    stripDotDot (joinSlash (List.replicate k ['.', '.'] ++ rest) ++ t)
      = stripDotDot (joinSlash rest ++ t) := by
  induction k with
  | zero => rfl
  | succ k ih =>
    have hL : List.replicate k ['.', '.'] ++ rest ≠ [] := by
      intro h
      rcases List.append_eq_nil.mp h with ⟨_, h2⟩
      exact hne h2
    rw [List.replicate_succ, List.cons_append,
      joinSlash_cons_of_ne_nil _ _ hL]
    rw [show (['.', '.'] ++ '/' :: joinSlash (List.replicate k ['.', '.'] ++ rest)) ++ t
        = '.' :: '.' :: '/' :: (joinSlash (List.replicate k ['.', '.'] ++ rest) ++ t) by simp]
    rw [stripDotDot_peel]
    exact ih

/-- A pure `".."` run (with optional trailing slash) strips to empty. -/
theorem stripDotDot_all_dots (k : Nat) (hk : k ≠ 0) (t : List Char)
    (ht : t = [] ∨ t = ['/']) :
    stripDotDot (joinSlash (List.replicate k ['.', '.']) ++ t) = [] := by
  induction k with
  | zero => exact absurd rfl hk
  | succ k ih =>
    cases k with
    | zero =>
      rcases ht with ht | ht <;> subst ht
      · rfl
      · rfl
    | succ k2 =>
      rw [List.replicate_succ, joinSlash_cons_of_ne_nil _ _ (by simp)]
      rw [show (['.', '.'] ++ '/' :: joinSlash (List.replicate (k2 + 1) ['.', '.'])) ++ t
          = '.' :: '.' :: '/' :: (joinSlash (List.replicate (k2 + 1) ['.', '.']) ++ t) by simp]
      rw [stripDotDot_peel]
      exact ih (by simp)

/-- The output of `stripDotDot` is drawn from its input. -/
theorem mem_stripDotDot (cs : List Char) : ∀ a ∈ stripDotDot cs, a ∈ cs := by
  induction cs using stripDotDot.induct with
  | case1 => intro a ha; exact ha
  | case2 c => intro a ha; exact ha
  | case3 c1 c2 h => intro a ha; rw [stripDotDot, if_pos h] at ha; simp at ha
  | case4 c1 c2 h => intro a ha; rw [stripDotDot, if_neg h] at ha; exact ha
  | case5 c1 c2 c3 rest h ih =>
    intro a ha
    rw [stripDotDot, if_pos h] at ha
    exact List.mem_cons_of_mem _ (List.mem_cons_of_mem _ (List.mem_cons_of_mem _ (ih a ha)))
  | case6 c1 c2 c3 rest h => intro a ha; rw [stripDotDot, if_neg h] at ha; exact ha

/-- Lists not starting with a separator are fixed by the strip. -/
theorem stripLeadingSlashes_of_head (cs : List Char) (h : cs.head? ≠ some '/') :
    stripLeadingSlashes cs = cs := by
  cases cs with
  | nil => rfl
  | cons c cs =>
    have : ¬ c = '/' := fun hh => h (by rw [hh]; rfl)
    simp [stripLeadingSlashes, this]

/-- After the strip the head is never a separator. -/
theorem head?_stripLeadingSlashes (cs : List Char) :
    (stripLeadingSlashes cs).head? ≠ some '/' := by
  induction cs with
  | nil => simp [stripLeadingSlashes]
  | cons c cs ih =>
    by_cases h : c = '/'
    · simpa [stripLeadingSlashes, h] using ih
    · simp [stripLeadingSlashes, h]

/-- Segments after the strip were already segments before it. -/
theorem mem_splitSlash_stripLeadingSlashes (cs : List Char) :
    ∀ s ∈ splitSlash (stripLeadingSlashes cs), s ∈ splitSlash cs := by
  induction cs with
  | nil => intro s hs; exact hs
  | cons c cs ih =>
    intro s hs
    by_cases h : c = '/'
    · rw [show stripLeadingSlashes (c :: cs) = stripLeadingSlashes cs by simp [stripLeadingSlashes, h]] at hs
      rw [show splitSlash (c :: cs) = [] :: splitSlash cs by simp [splitSlash, h]]
      exact List.mem_cons_of_mem _ (ih s hs)
    · rwa [show stripLeadingSlashes (c :: cs) = c :: cs by simp [stripLeadingSlashes, h]] at hs

/-- Characters after the strip come from the input. -/
theorem mem_stripLeadingSlashes (cs : List Char) :
    ∀ a ∈ stripLeadingSlashes cs, a ∈ cs := by
  induction cs with
  | nil => intro a ha; exact ha
  | cons c cs ih =>
    intro a ha
    by_cases h : c = '/'
    · rw [show stripLeadingSlashes (c :: cs) = stripLeadingSlashes cs by simp [stripLeadingSlashes, h]] at ha
      exact List.mem_cons_of_mem _ (ih a ha)
    · rwa [show stripLeadingSlashes (c :: cs) = c :: cs by simp [stripLeadingSlashes, h]] at ha

/-- No backslash survives the replacement. -/
theorem replaceBackslashes_no_backslash (cs : List Char) :
    '\\' ∉ replaceBackslashes cs := by
  intro h
  rcases List.mem_map.mp h with ⟨b, _, hb⟩
  by_cases hb2 : b = '\\' <;> simp [hb2] at hb

/-- The replacement fixes backslash-free input. -/
theorem replaceBackslashes_of_no_backslash (cs : List Char) (h : '\\' ∉ cs) :
    replaceBackslashes cs = cs := by
  unfold replaceBackslashes
  rw [show cs.map (fun c => if c = '\\' then '/' else c) = cs.map id by
    apply List.map_congr_left
    intro a ha
    have : ¬ a = '\\' := fun hh => h (hh ▸ ha)
    simp [this]]
  exact List.map_id cs

/-- Unfolding of `posixNormalizeChars` on non-empty input. -/
theorem posixNormalizeChars_eq (raw : List Char) (hraw : raw ≠ []) :
    posixNormalizeChars raw =
      if joinSlash (normSegs (!decide (raw.head? = some '/')) (splitSlash raw)) = [] then
        (if raw.head? = some '/' then ['/']
         else if raw.getLast? = some '/' then ['.', '/'] else ['.'])
      else
        ((if raw.head? = some '/' then
            '/' :: joinSlash (normSegs (!decide (raw.head? = some '/')) (splitSlash raw))
          else joinSlash (normSegs (!decide (raw.head? = some '/')) (splitSlash raw))) ++
         (if raw.getLast? = some '/' then ['/'] else [])) := by
  simp only [posixNormalizeChars]
  rw [if_neg hraw]

/-- Both strips fix a join of regular segments (with optional tail). -/
theorem strip_fix_of_reg (rest : List (List Char)) (t : List Char) (hne : rest ≠ [])
    (hreg : ∀ s ∈ rest, Reg s) :
    stripDotDot (joinSlash rest ++ t) = joinSlash rest ++ t ∧
    stripLeadingSlashes (joinSlash rest ++ t) = joinSlash rest ++ t := by
  cases rest with
  | nil => exact absurd rfl hne
  | cons h0 rest2 =>
    have hreg0 : Reg h0 := hreg h0 (List.mem_cons_self h0 rest2)
    have hdecomp : ∃ u, joinSlash (h0 :: rest2) ++ t = h0 ++ u := by
      cases rest2 with
      | nil => exact ⟨t, by simp [joinSlash]⟩
      | cons s2 l2 =>
        exact ⟨'/' :: joinSlash (s2 :: l2) ++ t, by
          rw [joinSlash_cons_of_ne_nil _ _ (by simp)]; simp⟩
    obtain ⟨u, hu⟩ := hdecomp
    constructor
    · rw [hu]; exact stripDotDot_append_reg h0 u hreg0
    · rw [hu]
      apply stripLeadingSlashes_of_head
      cases h0 with
      | nil => exact absurd rfl hreg0.1
      | cons c cs =>
        have hc : c ≠ '/' := fun hh => hreg0.2.2.2 (hh ▸ List.mem_cons_self c cs)
        simp [hc]

/-- Shape of the two strips applied to a normalized non-empty path:
empty, `"."`, `"./"`, or a join of regular backslash-free segments
with an optional trailing separator. -/
theorem strip2_shape (raw : List Char) (hraw : raw ≠ []) (hnb : '\\' ∉ raw) :
    stripLeadingSlashes (stripDotDot (posixNormalizeChars raw)) = [] ∨
    stripLeadingSlashes (stripDotDot (posixNormalizeChars raw)) = ['.'] ∨
    stripLeadingSlashes (stripDotDot (posixNormalizeChars raw)) = ['.', '/'] ∨
    ∃ rest t, rest ≠ [] ∧ (∀ s ∈ rest, Reg s ∧ '\\' ∉ s) ∧ (t = [] ∨ t = ['/']) ∧
      stripLeadingSlashes (stripDotDot (posixNormalizeChars raw)) = joinSlash rest ++ t := by
  rw [posixNormalizeChars_eq raw hraw]
  obtain ⟨k, rest, hnorm, hrest, hk0⟩ :=
    normSegs_shape (!decide (raw.head? = some '/')) (splitSlash raw) (mem_splitSlash_no_slash raw)
  have hrest2 : ∀ s ∈ rest, Reg s ∧ '\\' ∉ s := by
    intro s hs
    refine ⟨(hrest s hs).1, fun hbs => hnb (mem_of_mem_splitSlash raw s (hrest s hs).2 '\\' hbs)⟩
  have ht'or : (if raw.getLast? = some '/' then ['/'] else ([] : List Char)) = [] ∨
      (if raw.getLast? = some '/' then ['/'] else ([] : List Char)) = ['/'] := by
    by_cases htr : raw.getLast? = some '/'
    · right; rw [if_pos htr]
    · left; rw [if_neg htr]
  by_cases hbody : joinSlash (normSegs (!decide (raw.head? = some '/')) (splitSlash raw)) = []
  · rw [if_pos hbody]
    by_cases habs : raw.head? = some '/'
    · rw [if_pos habs]; left; rfl
    · rw [if_neg habs]
      by_cases htr : raw.getLast? = some '/'
      · rw [if_pos htr]; right; right; left; rfl
      · rw [if_neg htr]; right; left; rfl
  · rw [if_neg hbody]
    rw [hnorm] at hbody ⊢
    by_cases habs : raw.head? = some '/'
    · have hk : k = 0 := hk0 (by simp [habs])
      subst hk
      rw [List.replicate_zero, List.nil_append] at hbody ⊢
      have hrne : rest ≠ [] := by
        intro h
        rw [h] at hbody
        exact hbody rfl
      rw [if_pos habs]
      rw [show ('/' :: joinSlash rest) ++ (if raw.getLast? = some '/' then ['/'] else ([] : List Char))
          = '/' :: (joinSlash rest ++ (if raw.getLast? = some '/' then ['/'] else ([] : List Char))) by simp]
      rw [stripDotDot_of_head _
        (by intro t h; injection h with h1 _; exact absurd h1 (by decide))
        (by intro h; injection h with h1 _; exact absurd h1 (by decide))]
      rw [show stripLeadingSlashes
            ('/' :: (joinSlash rest ++ (if raw.getLast? = some '/' then ['/'] else ([] : List Char))))
          = stripLeadingSlashes
            (joinSlash rest ++ (if raw.getLast? = some '/' then ['/'] else ([] : List Char))) by
        simp [stripLeadingSlashes]]
      rw [(strip_fix_of_reg rest _ hrne (fun s hs => (hrest2 s hs).1)).2]
      exact Or.inr (Or.inr (Or.inr ⟨rest, _, hrne, hrest2, ht'or, rfl⟩))
    · rw [if_neg habs]
      by_cases hrne : rest = []
      · subst hrne
        rw [List.append_nil] at hbody ⊢
        have hk : k ≠ 0 := by
          intro h
          rw [h] at hbody
          exact hbody rfl
        rw [stripDotDot_all_dots k hk _ ht'or]
        left; rfl
      · rw [stripDotDot_dots_then k rest _ hrne]
        rw [(strip_fix_of_reg rest _ hrne (fun s hs => (hrest2 s hs).1)).1]
        rw [(strip_fix_of_reg rest _ hrne (fun s hs => (hrest2 s hs).1)).2]
        exact Or.inr (Or.inr (Or.inr ⟨rest, _, hrne, hrest2, ht'or, rfl⟩))

/-- A join of regular segments never starts with a separator. -/
theorem head_of_join_reg (rest : List (List Char)) (t : List Char) (hne : rest ≠ [])
    (hreg : ∀ s ∈ rest, Reg s) : (joinSlash rest ++ t).head? ≠ some '/' := by
  cases rest with
  | nil => exact absurd rfl hne
  | cons h0 rest2 =>
    have hreg0 : Reg h0 := hreg h0 (List.mem_cons_self h0 rest2)
    cases h0 with
    | nil => exact absurd rfl hreg0.1
    | cons c cs =>
      have hc : c ≠ '/' := fun hh => hreg0.2.2.2 (hh ▸ List.mem_cons_self c cs)
      have hj : (joinSlash ((c :: cs) :: rest2)).head? = some c :=
        head?_joinSlash (c :: cs) rest2 (by simp)
      cases hA : joinSlash ((c :: cs) :: rest2) with
      | nil => rw [hA] at hj; simp at hj
      | cons a as =>
        rw [hA] at hj
        simp only [List.head?_cons, Option.some.injEq] at hj
        subst hj
        rw [List.cons_append]
        simp [hc]

/-- A normalized key never begins with `"/"` at the `Bool` level. -/
theorem jsStartsWith_slash_eq_false (s : String) (h : s.data.head? ≠ some '/') :
    jsStartsWith s "/" = false := by
  rw [Bool.eq_false_iff]
  intro hc
  exact h ((singleton_prefix_head '/' s.data).mp (List.isPrefixOf_iff_prefix.mp hc))

/-- Resolution of a key free of `".."` segments keeps the root as a
prefix of the physical path. -/
theorem physResolve_prefix_of_no_dotdot (root : List (List Char)) (key : List Char)
    (h : ['.', '.'] ∉ splitSlash key) : root <+: physResolve root key := by
  unfold physResolve
  have main : ∀ (segs : List (List Char)), ['.', '.'] ∉ segs →
      ∀ st, st <+: segs.foldl resolveStep st := by
    intro segs
    induction segs with
    | nil => intro _ st; exact List.prefix_refl st
    | cons seg segs ih =>
      intro hdd st
      rw [List.foldl_cons]
      by_cases h1 : seg = [] ∨ seg = ['.']
      · rw [show resolveStep st seg = st by simp [resolveStep, h1]]
        exact ih (fun hc => hdd (List.mem_cons_of_mem _ hc)) st
      · have h2 : ¬ seg = ['.', '.'] := fun hc => hdd (hc ▸ List.mem_cons_self seg segs)
        rw [show resolveStep st seg = st ++ [seg] by simp [resolveStep, h1, h2]]
        exact (List.prefix_append st [seg]).trans
          (ih (fun hc => hdd (List.mem_cons_of_mem _ hc)) (st ++ [seg]))
  exact main (splitSlash key) h root

/-- Structure of every normalized key: empty, `"."`, `"./"`, or a join
of regular backslash-free segments with an optional trailing
separator. -/
theorem normalizeKey_shape (x : String) :
    (normalizeKey x).data = [] ∨ (normalizeKey x).data = ['.'] ∨
    (normalizeKey x).data = ['.', '/'] ∨
    ∃ rest t, rest ≠ [] ∧ (∀ s ∈ rest, Reg s ∧ '\\' ∉ s) ∧ (t = [] ∨ t = ['/']) ∧
      (normalizeKey x).data = joinSlash rest ++ t := by
  by_cases hraw : replaceBackslashes x.data = []
  · left
    simp only [normalizeKey]
    rw [if_pos hraw]
  · have hdata : (normalizeKey x).data
        = stripLeadingSlashes (stripDotDot (posixNormalizeChars (replaceBackslashes x.data))) := by
      simp only [normalizeKey]
      rw [if_neg hraw]
    rw [hdata]
    exact strip2_shape (replaceBackslashes x.data) hraw (replaceBackslashes_no_backslash x.data)

/-- C1: for every raw input, the key returned by `normalizeKey` never
begins with `"/"`, never contains a `".."` path segment, contains no
backslash, and — resolved physically against any root — stays under
that root (the root is a prefix of the resolved path). -/
theorem C1_normalizeKey_safe (x : String) :
    jsStartsWith (normalizeKey x) "/" = false ∧
    ['.', '.'] ∉ splitSlash (normalizeKey x).data ∧
    '\\' ∉ (normalizeKey x).data ∧
    ∀ root : List (List Char), root <+: physResolve root (normalizeKey x).data := by
  have hsegs : ['.', '.'] ∉ splitSlash (normalizeKey x).data := by
    rcases normalizeKey_shape x with h | h | h | ⟨rest, t, hne, hreg, htor, h⟩
    · rw [h]; decide
    · rw [h]; decide
    · rw [h]; decide
    · rw [h]
      have hslash : ∀ s ∈ rest, '/' ∉ s := fun s hs => (hreg s hs).1.2.2.2
      rcases htor with ht | ht <;> subst ht
      · rw [List.append_nil, splitSlash_join rest hne hslash]
        intro hc
        exact (hreg _ hc).1.2.2.1 rfl
      · rw [splitSlash_append_slash, splitSlash_join rest hne hslash]
        intro hc
        rcases List.mem_append.mp hc with hc | hc
        · exact (hreg _ hc).1.2.2.1 rfl
        · simp at hc
  refine ⟨?_, hsegs, ?_, fun root => physResolve_prefix_of_no_dotdot root _ hsegs⟩
  · apply jsStartsWith_slash_eq_false
    rcases normalizeKey_shape x with h | h | h | ⟨rest, t, hne, hreg, htor, h⟩
    · rw [h]; decide
    · rw [h]; decide
    · rw [h]; decide
    · rw [h]
      exact head_of_join_reg rest t hne (fun s hs => (hreg s hs).1)
  · rcases normalizeKey_shape x with h | h | h | ⟨rest, t, hne, hreg, htor, h⟩
    · rw [h]; decide
    · rw [h]; decide
    · rw [h]; decide
    · rw [h]
      intro hc
      rcases List.mem_append.mp hc with hc | hc
      · rcases mem_joinSlash rest '\\' hc with h1 | ⟨s, hs, hmem⟩
        · exact absurd h1 (by decide)
        · exact (hreg s hs).2 hmem
      · rcases htor with ht | ht <;> subst ht
        · simp at hc
        · simp at hc

/-- A normalized key of the regular-join shape is a fixed point of
`normalizeKey`. -/
theorem normalizeKey_fixed (rest : List (List Char)) (t : List Char) (hne : rest ≠ [])
    (hreg : ∀ s ∈ rest, Reg s ∧ '\\' ∉ s) (ht : t = [] ∨ t = ['/']) :
    normalizeKey (String.mk (joinSlash rest ++ t)) = String.mk (joinSlash rest ++ t) := by
  have hregs : ∀ s ∈ rest, Reg s := fun s hs => (hreg s hs).1
  have hXnb : '\\' ∉ joinSlash rest ++ t := by
    intro hc
    rcases List.mem_append.mp hc with hc | hc
    · rcases mem_joinSlash rest '\\' hc with h1 | ⟨s, hs, hmem⟩
      · exact absurd h1 (by decide)
      · exact (hreg s hs).2 hmem
    · rcases ht with h1 | h1 <;> subst h1 <;> simp at hc
  have hXne : joinSlash rest ++ t ≠ [] := by
    intro h
    rcases List.append_eq_nil.mp h with ⟨h1, _⟩
    exact joinSlash_ne_nil rest hne (fun s hs => (hregs s hs).1) h1
  have hraweq : replaceBackslashes (joinSlash rest ++ t) = joinSlash rest ++ t :=
    replaceBackslashes_of_no_backslash _ hXnb
  have hhead : (joinSlash rest ++ t).head? ≠ some '/' := head_of_join_reg rest t hne hregs
  have hslash : ∀ s ∈ rest, '/' ∉ s := fun s hs => (hregs s hs).2.2.2
  have hsplit : splitSlash (joinSlash rest ++ t) = rest ++ (if t = ['/'] then [[]] else []) := by
    rcases ht with h1 | h1 <;> subst h1
    · rw [List.append_nil, splitSlash_join rest hne hslash]
      simp
    · rw [splitSlash_append_slash, splitSlash_join rest hne hslash]
      simp
  have hns : ∀ allow, normSegs allow (splitSlash (joinSlash rest ++ t)) = rest := by
    intro allow
    rw [hsplit, normSegs_of_reg]
    · rw [List.filter_append]
      rw [List.filter_eq_self.mpr (by
        intro s hs
        cases hcs : s with
        | nil => exact absurd hcs (hregs s hs).1
        | cons c cs => rfl)]
      rcases ht with h1 | h1 <;> subst h1 <;> simp
    · intro s hs
      rcases List.mem_append.mp hs with hs | hs
      · exact Or.inl (hregs s hs)
      · rcases ht with h1 | h1 <;> subst h1 <;> simp at hs
        exact Or.inr hs
  have hbody_ne : joinSlash rest ≠ [] :=
    joinSlash_ne_nil rest hne (fun s hs => (hregs s hs).1)
  have hlast : ((joinSlash rest ++ t).getLast? = some '/') ↔ t = ['/'] := by
    rcases ht with h1 | h1 <;> subst h1
    · rw [List.append_nil]
      constructor
      · intro h
        exfalso
        obtain ⟨init, lastseg, hsplit2⟩ : ∃ init lastseg, rest = init ++ [lastseg] := by
          refine ⟨rest.dropLast, rest.getLast hne, ?_⟩
          rw [List.dropLast_append_getLast hne]
        rw [hsplit2] at h
        rw [getLast?_joinSlash init lastseg
          (fun u hu => (hregs u (hsplit2 ▸ List.mem_append_left _ hu)).1)
          (hregs lastseg (hsplit2 ▸ List.mem_append_right _ (List.mem_cons_self _ _))).1] at h
        exact (hregs lastseg (hsplit2 ▸ List.mem_append_right _ (List.mem_cons_self _ _))).2.2.2
          (List.mem_of_mem_getLast? h)
      · intro h
        simp at h
    · simp [List.getLast?_concat]
  have hP : posixNormalizeChars (joinSlash rest ++ t) = joinSlash rest ++ t := by
    rw [posixNormalizeChars_eq _ hXne, hns, if_neg hbody_ne, if_neg hhead]
    rcases ht with h1 | h1 <;> subst h1
    · have hnl : ¬ ((joinSlash rest ++ ([] : List Char)).getLast? = some '/') := by
        intro hc
        simpa using hlast.mp hc
      rw [if_neg hnl]
    · rw [if_pos (hlast.mpr rfl)]
  simp only [normalizeKey]
  rw [hraweq, if_neg hXne, hP, (strip_fix_of_reg rest t hne hregs).1,
    (strip_fix_of_reg rest t hne hregs).2]

/-- C8: `normalizeKey` is idempotent on every input string. -/
theorem C8_normalizeKey_idem (x : String) :
    normalizeKey (normalizeKey x) = normalizeKey x := by
  rcases normalizeKey_shape x with h | h | h | ⟨rest, t, hne, hreg, htor, h⟩
  · rw [show normalizeKey x = "" from String.ext (by rw [h])]
    decide
  · rw [show normalizeKey x = "." from String.ext (by rw [h])]
    decide
  · rw [show normalizeKey x = "./" from String.ext (by rw [h])]
    decide
  · rw [show normalizeKey x = String.mk (joinSlash rest ++ t) from String.ext (by rw [h])]
    exact normalizeKey_fixed rest t hne hreg htor

/-- Membership across the page chunking (with sufficient fuel). -/
theorem mem_chunksAux (fuel : Nat) : ∀ (l : List String), l.length ≤ fuel →
    ∀ a : String, (a ∈ l ↔ ∃ pg ∈ chunksAux fuel l, a ∈ pg) := by
  induction fuel with
  | zero =>
    intro l hl a
    have hnil : l = [] := List.eq_nil_of_length_eq_zero (Nat.le_zero.mp hl)
    subst hnil
    simp [chunksAux]
  | succ fuel ih =>
    intro l hl a
    cases l with
    | nil => simp [chunksAux]
    | cons x xs =>
      have hlen : ((x :: xs).drop 1000).length ≤ fuel := by
        rw [List.length_drop]
        simp only [List.length_cons] at hl ⊢
        omega
      have hsplit : a ∈ (x :: xs) ↔ a ∈ (x :: xs).take 1000 ∨ a ∈ (x :: xs).drop 1000 := by
        conv_lhs => rw [← List.take_append_drop 1000 (x :: xs)]
        exact List.mem_append
      rw [show chunksAux (fuel + 1) (x :: xs)
          = (x :: xs).take 1000 :: chunksAux fuel ((x :: xs).drop 1000) from rfl,
        hsplit, ih _ hlen a]
      constructor
      · rintro (h | ⟨pg, hpg, ha⟩)
        · exact ⟨_, List.mem_cons_self _ _, h⟩
        · exact ⟨pg, List.mem_cons_of_mem _ hpg, ha⟩
      · rintro ⟨pg, hpg, ha⟩
        rcases List.mem_cons.mp hpg with h | h
        · left; rwa [← h]
        · right; exact ⟨pg, h, ha⟩

/-- Membership across `chunks1000`. -/
theorem mem_chunks1000 (l : List String) (a : String) :
    a ∈ l ↔ ∃ pg ∈ chunks1000 l, a ∈ pg :=
  mem_chunksAux l.length l le_rfl a

/-- Folding batched page deletions filters out exactly the keys
contained in some page. -/
theorem foldl_removeKeys (pages : List (List String)) :
    ∀ store : List String, pages.foldl removeKeys store
      = store.filter (fun k => pages.all (fun pg => !pg.contains k)) := by
  induction pages with
  | nil => intro store; simp
  | cons pg pages ih =>
    intro store
    rw [List.foldl_cons, ih]
    unfold removeKeys
    rw [List.filter_filter]
    apply List.filter_congr
    intro k _
    simp [Bool.and_comm]

/-- The paginated prefix delete removes exactly the keys under the
built prefix. -/
theorem deleteS3PrefixFn_eq (b : String) (store : List String) (p : String) :
    deleteS3PrefixFn b store p
      = store.filter (fun k => !(jsStartsWith k (buildKey b p))) := by
  unfold deleteS3PrefixFn
  rw [foldl_removeKeys]
  apply List.filter_congr
  intro k hk
  by_cases hsw : jsStartsWith k (buildKey b p) = true
  · have hmem : k ∈ store.filter (fun k2 => jsStartsWith k2 (buildKey b p)) :=
      List.mem_filter.mpr ⟨hk, hsw⟩
    obtain ⟨pg, hpg, hkpg⟩ := (mem_chunks1000 _ k).mp hmem
    have hall : (chunks1000 (store.filter (fun k2 => jsStartsWith k2 (buildKey b p)))).all
        (fun pg2 => !pg2.contains k) = false := by
      rw [List.all_eq_false]
      refine ⟨pg, hpg, ?_⟩
      simpa using hkpg
    rw [hall, hsw]
    rfl
  · have hsw2 : jsStartsWith k (buildKey b p) = false := Bool.eq_false_iff.mpr hsw
    rw [hsw2]
    have hall : (chunks1000 (store.filter (fun k2 => jsStartsWith k2 (buildKey b p)))).all
        (fun pg2 => !pg2.contains k) = true := by
      rw [List.all_eq_true]
      intro pg hpg
      by_cases hin : k ∈ pg
      · exfalso
        have : k ∈ store.filter (fun k2 => jsStartsWith k2 (buildKey b p)) :=
          (mem_chunks1000 _ k).mpr ⟨pg, hpg, hin⟩
        exact hsw (List.mem_filter.mp this).2
      · simpa using hin
    rw [hall]
    rfl

/-- C3: for a key ending in `/`, the delete handler succeeds and
removes exactly the store keys under the built prefix and the catalog
records whose `filePath` starts with the prefix; with nothing matching
both filters are vacuous and the response is still the success one. -/
theorem C3_delete_prefix (b uid : String) (now : Nat) (st : St) (key : String)
    (hne : normalizeKey key ≠ "") (hfold : jsEndsWith (normalizeKey key) "/" = true) :
    (deleteHandler noFail b uid now st key).1 = Except.ok () ∧
    (deleteHandler noFail b uid now st key).2.store
        = st.store.filter (fun k => !(jsStartsWith k (buildKey b (normalizeKey key)))) ∧
    (deleteHandler noFail b uid now st key).2.catalog
        = st.catalog.filter (fun r => !(jsStartsWith r.filePath (normalizeKey key))) := by
  unfold deleteHandler
  rw [if_neg hne, if_pos hfold]
  refine ⟨rfl, ?_, ?_⟩
  · show deleteS3PrefixFn b st.store (normalizeKey key) = _
    exact deleteS3PrefixFn_eq b st.store (normalizeKey key)
  · show st.catalog.filter (fun r => !(regexTest (normalizeKey key) r.filePath)) = _
    apply List.filter_congr
    intro r _
    rw [regexTest_eq_startsWith]

/-- Witness for C3 on a concrete state, including a key under the
prefix, one outside it, and a catalog record of each kind. -/
theorem C3_delete_prefix_witness :
    (deleteHandler noFail "r/" "u" 5 ⟨["r/x/a", "r/x/b/c", "r/y"],
        [⟨"x/a", "a", 1, false, "u", 0⟩, ⟨"y", "y", 2, false, "u", 0⟩], []⟩ "x/").1
      = Except.ok () ∧
    (deleteHandler noFail "r/" "u" 5 ⟨["r/x/a", "r/x/b/c", "r/y"],
        [⟨"x/a", "a", 1, false, "u", 0⟩, ⟨"y", "y", 2, false, "u", 0⟩], []⟩ "x/").2.store
      = ["r/x/a", "r/x/b/c", "r/y"].filter
          (fun k => !(jsStartsWith k (buildKey "r/" (normalizeKey "x/")))) ∧
    (deleteHandler noFail "r/" "u" 5 ⟨["r/x/a", "r/x/b/c", "r/y"],
        [⟨"x/a", "a", 1, false, "u", 0⟩, ⟨"y", "y", 2, false, "u", 0⟩], []⟩ "x/").2.catalog
      = [⟨"x/a", "a", 1, false, "u", 0⟩, ⟨"y", "y", 2, false, "u", 0⟩].filter
          (fun r => !(jsStartsWith r.filePath (normalizeKey "x/"))) :=
  C3_delete_prefix "r/" "u" 5 ⟨["r/x/a", "r/x/b/c", "r/y"],
    [⟨"x/a", "a", 1, false, "u", 0⟩, ⟨"y", "y", 2, false, "u", 0⟩], []⟩ "x/"
    (by decide) (by decide)

/-- A row whose key does not start with the prefix is never kept. -/
theorem keepOneLevel_of_not_starts (pfx key : String)
    (h : jsStartsWith key pfx = false) : keepOneLevel pfx key = false := by
  unfold keepOneLevel
  rw [h]
  rfl

/-- C2: the list operation returns exactly (as a permutation, fused
into one catalog filter) the records kept by the one-level filter,
sorted ascending by full key; and the one-level filter holds precisely
when the `filePath` starts with the literal normalized prefix and the
remainder after stripping it is non-empty with either no `/` at all or
exactly one `/` as its final character. -/
theorem C2_list_one_level (catalog : List FileRec) (raw : String) :
    ((listFiles catalog raw).map FileEntry.key).Pairwise (· ≤ ·) ∧
    List.Perm (listFiles catalog raw)
      ((catalog.filter (fun r => keepOneLevel (normalizeKey raw) r.filePath)).map
        (fun r => ⟨r.filePath, r.size, r.updatedAt⟩)) ∧
    (∀ key : String, keepOneLevel (normalizeKey raw) key = true ↔
      (jsStartsWith key (normalizeKey raw) = true ∧
       key.data.drop (normalizeKey raw).data.length ≠ [] ∧
       ((key.data.drop (normalizeKey raw).data.length).count '/' = 0 ∨
        ((key.data.drop (normalizeKey raw).data.length).count '/' = 1 ∧
         jsEndsWith (String.mk (key.data.drop (normalizeKey raw).data.length)) "/" = true)))) := by
  refine ⟨?_, ?_, ?_⟩
  · simp only [listFiles]
    rw [List.map_map, List.pairwise_map]
    exact List.Pairwise.filter _ (List.sorted_insertionSort pathLe _)
  · simp only [listFiles]
    have he : (catalog.filter (fun r => regexTest (normalizeKey raw) r.filePath)).filter
          (fun r => keepOneLevel (normalizeKey raw) r.filePath)
        = catalog.filter (fun r => keepOneLevel (normalizeKey raw) r.filePath) := by
      rw [List.filter_filter]
      apply List.filter_congr
      intro r _
      rw [regexTest_eq_startsWith]
      by_cases hs : jsStartsWith r.filePath (normalizeKey raw) = true
      · rw [hs, Bool.and_true]
      · have hs2 := Bool.eq_false_iff.mpr hs
        rw [hs2, keepOneLevel_of_not_starts _ _ hs2]
        rfl
    have h2 : List.Perm ((List.insertionSort pathLe
          (catalog.filter (fun r => regexTest (normalizeKey raw) r.filePath))).filter
            (fun r => keepOneLevel (normalizeKey raw) r.filePath))
        ((catalog.filter (fun r => regexTest (normalizeKey raw) r.filePath)).filter
            (fun r => keepOneLevel (normalizeKey raw) r.filePath)) :=
      (List.perm_insertionSort pathLe _).filter _
    rw [he] at h2
    exact h2.map _
  · intro key
    simp only [keepOneLevel]
    by_cases h1 : (!(jsStartsWith key (normalizeKey raw))) = true
    · rw [if_pos h1]
      simp only [Bool.false_eq_true, false_iff, not_and]
      intro hS
      rw [hS] at h1
      exact absurd h1 (by decide)
    · rw [if_neg h1]
      have hS : jsStartsWith key (normalizeKey raw) = true := by
        cases hb : jsStartsWith key (normalizeKey raw)
        · rw [hb] at h1; exact absurd rfl h1
        · rfl
      by_cases h2 : (key.data.drop (normalizeKey raw).data.length).isEmpty = true
      · rw [if_pos h2]
        simp only [Bool.false_eq_true, false_iff, not_and]
        intro _ hne
        exact absurd (List.isEmpty_iff.mp h2) hne
      · rw [if_neg h2]
        have hne : key.data.drop (normalizeKey raw).data.length ≠ [] := by
          intro hc
          exact h2 (by rw [hc]; rfl)
        by_cases h3 : (key.data.drop (normalizeKey raw).data.length).count '/' = 0
        · rw [if_pos h3]
          simp only [true_iff]
          exact ⟨hS, hne, Or.inl h3⟩
        · rw [if_neg h3]
          rw [Bool.and_eq_true, decide_eq_true_eq]
          constructor
          · rintro ⟨hc1, hc2⟩
            exact ⟨hS, hne, Or.inr ⟨hc1, hc2⟩⟩
          · rintro ⟨_, _, hc | hc⟩
            · exact absurd hc h3
            · exact hc
